import Mathlib

/-!
Shallow embedding of the private-symbol proposal's reference implementation
(`src/polyfill.js` and `src/commonjs-helpers.js`).

Conventions of the embedding:
* A JS symbol is identified by a `Nat` identity token; the polyfill's
  process-wide registry (`data`, a `Set` of symbols queried through the bound
  `isPrivate = data.has.bind(data)`) is modelled either as an explicit list of
  created identities or, where a component only queries membership, as an
  arbitrary membership predicate `isPriv : Nat → Bool`.
* JS values that can reach the broker/importer APIs are modelled by `JSVal`;
  `typeof`-based shape checks become pattern matches on its constructors.
* A `WeakMap` is modelled as an association list from `JSVal` (object
  identities) to `JSVal`; a `Map` keyed by strings is an association list
  `List (String × _)` with JS `Map.set` replace-in-place semantics.
* Thrown JS exceptions become `Except`/explicit outcome values; the error
  classes and their distinguishing data are kept as inductive constructors.
-/

/-- A JS property key: a string key or a symbol (by identity token).
Only symbols can be private. -/
inductive PropKey where
  | strKey (s : String)
  | symKey (id : Nat)
deriving DecidableEq, Repr

/-- Whether a property key is a private key, given the registry membership
predicate on symbol identities. String keys are never private. -/
def PropKey.isPrivateKey (isPriv : Nat → Bool) : PropKey → Bool
  | .strKey _ => false
  | .symKey id => isPriv id

/-- JS values as far as the embedded code inspects them: objects and functions
(carrying an identity), `null`, `undefined`, and the primitive shapes the
`typeof` checks distinguish. -/
inductive JSVal where
  | obj (id : Nat)
  | fn (id : Nat)
  | nul
  | undef
  | str (s : String)
  | num (n : Int)
  | boolV (b : Bool)
  | symV (id : Nat)
deriving DecidableEq, Repr

/-- The test `O == null || typeof O !== "object" && typeof O !== "function"`
from `transact` passes (does not throw) exactly for non-null objects and
functions: `typeof null` is `"object"` but `null == null` catches it, and
`undefined == null` as well. -/
def JSVal.isObjLike : JSVal → Bool
  | .obj _ => true
  | .fn _ => true
  | _ => false

/-! ## Registry (`polyfill.js` lines 24-26, 110-121)

`const data = new Set()`, `markPrivate = data.add.bind(data)`,
`isPrivate = data.has.bind(data)`. `Symbol.private(name)` allocates a fresh
symbol, marks it, returns it. -/

/-- The polyfill's closure state: the next fresh symbol identity and the
registry contents (`data`). -/
structure PolyfillState where
  counter : Nat
  data : List Nat
deriving Repr

/-- Registry membership, `data.has`. -/
def PolyfillState.isPrivateSym (st : PolyfillState) (id : Nat) : Bool :=
  st.data.contains id

/-- `Symbol.private(name)`: `const sym = OldSymbol(name); markPrivate(sym);
return sym`. Fresh-symbol allocation is modelled by the counter. -/
def symbolPrivate (st : PolyfillState) : PolyfillState × Nat :=
  (⟨st.counter + 1, st.counter :: st.data⟩, st.counter)

/-- Outcome of a JS call that can throw. The error constructors keep the
distinguishing data of the thrown error. -/
inductive JSOutcome (α : Type) where
  | ok (a : α)
  | typeError (msg : String)
  | referenceError (msg : String)
deriving DecidableEq, Repr

/-- `Symbol.isPrivate(sym)` as written in `polyfill.js` lines 117-120:

    isPrivate(sym) \x7b
        if (typeof sym === "symbol") return isPrivate(symbol)
        throw new TypeError(...)
    \x7d

The identifier `symbol` in the symbol branch is unbound (the parameter is
named `sym`), so in strict mode the branch throws a `ReferenceError` before
the registry is ever consulted. The non-symbol branch throws the `TypeError`.
The registry argument is therefore never read on any path. -/
def symbolIsPrivate (_registry : List Nat) (arg : JSVal) : JSOutcome Bool :=
  match arg with
  | .symV _ => .referenceError "symbol is not defined"
  | _ => .typeError "sym is not a symbol!"

/-! ## `removePrivateKeys` (`polyfill.js` lines 34-41)

The source compacts the array in place: it copies `array[i]` down to
`array[count++]` whenever the element is not private, then truncates to
`count`. The observable returned array is the kept elements in their original
order, which this structural recursion reproduces element by element. -/

def removePrivateKeys {α : Type} (isPrivKey : α → Bool) : List α → List α
  | [] => []
  | k :: ks =>
      if isPrivKey k then removePrivateKeys isPrivKey ks
      else k :: removePrivateKeys isPrivKey ks

/-! ## The filtered proxy handler (`polyfill.js` lines 56-98)

`filterProxy(handler)` derives a handler whose key-parameterized traps
dispatch as follows (the `filter(method)` combinator):

    if (!isPrivate(key)) \x7b
        const body = handler[method]
        if (body != null) return call(body, handler, ...arguments)
    \x7d
    return hooks[method](...arguments)

`hooks[method]` is the saved original `Reflect[method]`, i.e. the default
(non-intercepted) semantics applied to the raw target with the original
arguments. The embedding records which of the two paths is taken and with
which arguments; `α` stands for the full original argument tuple
(`...arguments`), whose key component is passed alongside. -/

/-- The six key-parameterized trap names routed through `filter` in
`filterProxy`. -/
inductive KeyedMethod where
  | get
  | set
  | has
  | deleteProperty
  | defineProperty
  | getOwnPropertyDescriptor
deriving DecidableEq, Repr

/-- A user proxy handler, as far as dispatch is concerned: per method, whether
`handler[method] != null` (a trap is supplied). -/
structure ProxyHandler where
  trapPresent : KeyedMethod → Bool

/-- What a filtered trap invocation did: invoked the user handler's trap with
the original arguments, or executed the default semantics (`hooks[method]`,
the saved `Reflect` original) against the raw target with the original
arguments. -/
inductive Call (α : Type) where
  | trap (args : α)
  | defaultOp (args : α)
deriving DecidableEq, Repr

/-- The body of `filter(method)` from `filterProxy`, for one invocation:
`key` is the trap's key argument, `args` the full original argument tuple. -/
def filterTrap {α : Type} (isPriv : Nat → Bool) (h : ProxyHandler)
    (m : KeyedMethod) (key : PropKey) (args : α) : Call α :=
  if !(key.isPrivateKey isPriv) then
    if h.trapPresent m then Call.trap args
    else Call.defaultOp args
  else Call.defaultOp args

/-! ## The `ownKeys` trap of the filtered handler (`polyfill.js` lines 43-54,
89-97)

With no user trap it returns the saved `Reflect.ownKeys(target)`. With a user
trap it maps `filterKey` over the indices of the trap's returned list via
`Array.from(lengthRef, filterKey, keys)`; `filterKey` returns `keys[i]`
unchanged unless it is private, in which case it throws the `TypeError`
below. So the mapping walks the list left to right and aborts on the first
private key; no key is ever removed. -/

/-- Error message thrown by `filterKey`. -/
def ownKeysTrapError : String :=
  "ownKeys on proxy: trap returned a private symbol as a key"

/-- The `Array.from(lengthRef, filterKey, keys)` mapping applied to a user
trap's returned key list. -/
def ownKeysFilter (isPriv : Nat → Bool) : List PropKey → Except String (List PropKey)
  | [] => .ok []
  | k :: ks =>
      if k.isPrivateKey isPriv then .error ownKeysTrapError
      else
        match ownKeysFilter isPriv ks with
        | .error e => .error e
        | .ok rest => .ok (k :: rest)

/-- The filtered handler's `ownKeys` member: `targetOwnKeys` stands for the
saved `Reflect.ownKeys(target)`, `trapResult` for the user trap's returned
list when the user handler supplies one. -/
def ownKeysTrap (isPriv : Nat → Bool) (targetOwnKeys : List PropKey)
    (trapResult : Option (List PropKey)) : Except String (List PropKey) :=
  match trapResult with
  | none => .ok targetOwnKeys
  | some keys => ownKeysFilter isPriv keys

/-! ## Patched global reflection (`polyfill.js` lines 123-142)

The patched `Object.getOwnPropertySymbols` and `Reflect.ownKeys` call the
saved originals and run the result through `removePrivateKeys`. The patched
`Object.getOwnPropertyDescriptors` takes the full original descriptor record,
then deletes `result[k]` for every private `k` among the object's own
symbols. A JS own-property record never repeats a key, so property deletion
is modelled as removing every entry with that key. -/

/-- An own-property descriptor record: association of property keys to
descriptors (opaque here, identified by `Nat`). -/
abbrev DescRecord : Type := List (PropKey × Nat)

/-- JS `delete record[k]`: drop the binding for `k`. -/
def recordDelete (r : DescRecord) (k : PropKey) : DescRecord :=
  r.filter (fun e => !(e.1 = k : Bool))

/-- The own symbol keys of a record, in record order — what the saved
original `Object.getOwnPropertySymbols(object)` returns for the object whose
own properties are `own`. -/
def ownSymbolsOf (own : DescRecord) : List Nat :=
  own.filterMap (fun e =>
    match e.1 with
    | .symKey id => some id
    | .strKey _ => none)

/-- Patched `Object.getOwnPropertyDescriptors`: start from the full original
record, delete every private own-symbol key. -/
def getOwnPropertyDescriptorsPatched (isPriv : Nat → Bool) (own : DescRecord) :
    DescRecord :=
  (ownSymbolsOf own).foldl
    (fun res id => if isPriv id then recordDelete res (.symKey id) else res) own

/-- Patched `Reflect.ownKeys`: `removePrivateKeys(ownKeys(target))`. -/
def reflectOwnKeysPatched (isPriv : Nat → Bool) (underlying : List PropKey) :
    List PropKey :=
  removePrivateKeys (PropKey.isPrivateKey isPriv) underlying

/-- Patched `Object.getOwnPropertySymbols`:
`removePrivateKeys(getOwnPropertySymbols(object))`. -/
def getOwnPropertySymbolsPatched (isPriv : Nat → Bool) (underlying : List Nat) :
    List Nat :=
  removePrivateKeys isPriv underlying

/-! ## The cross-module broker (`commonjs-helpers.js` lines 54-124)

String-keyed JS `Map`s become association lists with `Map.set`
replace-or-append semantics; `WeakMap`s over object identities likewise. -/

/-- JS `Map.prototype.get` (returns `undefined`, here `none`, when absent). -/
def mapGet {α : Type} : List (String × α) → String → Option α
  | [], _ => none
  | (k, v) :: rest, key => if k = key then some v else mapGet rest key

/-- JS `Map.prototype.set`: replace the existing binding in place, else
append. -/
def mapSet {α : Type} : List (String × α) → String → α → List (String × α)
  | [], key, v => [(key, v)]
  | (k, w) :: rest, key, v =>
      if k = key then (key, v) :: rest else (k, w) :: mapSet rest key v

/-- A Hidden Store: a `WeakMap` from object identity to stored value. -/
abbrev Store : Type := List (JSVal × JSVal)

/-- `WeakMap.prototype.has`. -/
def weakHas : Store → JSVal → Bool
  | [], _ => false
  | (k, _) :: rest, o => if k = o then true else weakHas rest o

/-- `WeakMap.prototype.get` (`none` for `undefined`). -/
def weakGet : Store → JSVal → Option JSVal
  | [], _ => none
  | (k, v) :: rest, o => if k = o then some v else weakGet rest o

/-- `WeakMap.prototype.set`: replace the existing entry, else append. -/
def weakSet : Store → JSVal → JSVal → Store
  | [], o, v => [(o, v)]
  | (k, w) :: rest, o, v =>
      if k = o then (o, v) :: rest else (k, w) :: weakSet rest o v

/-- `addExported(key)` from `makeExportedKeys`: skip keys already in
`exported`; otherwise require `internalRefs[key]` to be a `WeakMap`
(`internalRefs : String → Option Store`, `none` meaning absent or not a
`WeakMap`) and record it, else throw `Missing private key`. -/
def addExported (internalRefs : String → Option Store)
    (exported : List (String × Store)) (key : String) :
    Except String (List (String × Store)) :=
  if (mapGet exported key).isSome then .ok exported
  else
    match internalRefs key with
    | some s => .ok (mapSet exported key s)
    | none => .error ("Missing private key: #" ++ key)

/-- `keys.forEach(addExported)` threading the `exported` map. -/
def addAll (internalRefs : String → Option Store) :
    List String → List (String × Store) → Except String (List (String × Store))
  | [], ex => .ok ex
  | k :: ks, ex =>
      match addExported internalRefs ex k with
      | .error e => .error e
      | .ok ex2 => addAll internalRefs ks ex2

/-- `Object.keys(scoped).forEach(...)`: for each scoped consumer in order,
`addExported` its keys, then `resolved.set(req.resolve(key), value)` where
`value = new Set(fallback)` plus the consumer's keys — membership-wise
`fallback ++ ks`. -/
def processScoped (internalRefs : String → Option Store)
    (resolve : String → String) (fallback : List String) :
    List (String × List String) → List (String × Store) →
    List (String × List String) →
    Except String (List (String × Store) × List (String × List String))
  | [], ex, res => .ok (ex, res)
  | (m, ks) :: rest, ex, res =>
      match addAll internalRefs ks ex with
      | .error e => .error e
      | .ok ex2 =>
          processScoped internalRefs resolve fallback rest ex2
            (mapSet res (resolve m) (fallback ++ ks))

/-- The state captured by the factory closure returned from
`makeExportedKeys`: `fallback` (`new Set(all)`), `resolved` and `exported`. -/
structure Broker where
  fallback : List String
  resolved : List (String × List String)
  exported : List (String × Store)
deriving DecidableEq, Repr

/-- `makeExportedKeys(internalRefs, req, all, scoped)` up to returning the
factory: `all.forEach(addExported)`, then the scoped pass. A thrown
`Missing private key` error is the `.error` case. -/
def makeExportedKeys (internalRefs : String → Option Store)
    (resolve : String → String) (all : List String)
    (scopedKeys : List (String × List String)) : Except String Broker :=
  match addAll internalRefs all [] with
  | .error e => .error e
  | .ok ex0 =>
      match processScoped internalRefs resolve all scopedKeys ex0 [] with
      | .error e => .error e
      | .ok (ex1, res) => .ok ⟨all, res, ex1⟩

/-- The factory's validation loop: for each requested key in order, if not in
`allowed` return it as the sentinel, else add it to `refs`. On success the
collected `refs` list is exactly the requested keys. -/
def validateKeys (allowed : List String) : List String → Sum String (List String)
  | [] => .inr []
  | k :: ks =>
      if k ∈ allowed then
        match validateKeys allowed ks with
        | .inl bad => .inl bad
        | .inr refs => .inr (k :: refs)
      else .inl k

/-- A broker session: the authorized `refs` set and the shared `exported`
store map, as captured by the `\x7bget, set\x7d` closure. -/
structure BrokerSession where
  refs : List String
  exported : List (String × Store)
deriving DecidableEq, Repr

/-- The factory function returned by `makeExportedKeys`:
`allowed = mapGet(resolved, filename) || fallback` (a `Set` is always
truthy), then the validation loop; on success the session. -/
def brokerFactory (b : Broker) (filename : String) (keys : List String) :
    Sum String BrokerSession :=
  let allowed := (mapGet b.resolved filename).getD b.fallback
  match validateKeys allowed keys with
  | .inl k => .inl k
  | .inr refs => .inr ⟨refs, b.exported⟩

/-- Errors thrown by `transact` and the session accessors. `invalidKey` is
the plain `Error("Invalid private key: #" + key)`; `typeMismatch` the
`TypeError` for a non-object target; `missingField` the `TypeError` for a
target with no entry in the key's Hidden Store; `incompatibleReceiver`
models `WeakMap.prototype.has` called with `undefined` as receiver (the
`mapGet(exported, key)` miss — unreachable for factory-produced sessions,
see `C4`). -/
inductive BrokerError where
  | invalidKey (key : String)
  | typeMismatch (key : String)
  | missingField (key : String)
  | incompatibleReceiver (key : String)
deriving DecidableEq, Repr

/-- `transact(O, key)` from the factory's returned session
(`commonjs-helpers.js` lines 102-117), checks in source order: `refs`
membership, then the store lookup, then the object-shape test, then
`weakHas(store, O)`. -/
def transact (refs : List String) (exported : List (String × Store))
    (O : JSVal) (key : String) : Except BrokerError Store :=
  if !(key ∈ refs : Bool) then .error (.invalidKey key)
  else
    let store? := mapGet exported key
    if !O.isObjLike then .error (.typeMismatch key)
    else
      match store? with
      | none => .error (.incompatibleReceiver key)
      | some store =>
          if !(weakHas store O) then .error (.missingField key)
          else .ok store

/-- Session `get`: `weakGet(transact(O, K), O)` (`undefined` if — per the
`transact` postcondition impossibly — absent). -/
def sessionGet (s : BrokerSession) (O : JSVal) (key : String) :
    Except BrokerError JSVal :=
  match transact s.refs s.exported O key with
  | .error e => .error e
  | .ok store => .ok ((weakGet store O).getD .undef)

/-- Session `set`: `weakSet(transact(O, K), O, V); return V`. The updated
Hidden Store is returned alongside the written value. -/
def sessionSet (s : BrokerSession) (O : JSVal) (key : String) (V : JSVal) :
    Except BrokerError (Store × JSVal) :=
  match transact s.refs s.exported O key with
  | .error e => .error e
  | .ok store => .ok (weakSet store O V, V)

/-! ## The importer binding (`commonjs-helpers.js` lines 15-41)

`getExportedKeys(source, TE, RE)` closes over `var result = String(source)`.
The binding's state is that `result` value: a string (unbound or poisoned)
or the broker session installed by a successful `init`. The JS reference
error interpolates the requested key first and the current string `result`
second: `"Private key #" + key + " could not be referenced from " + result`
(the source string position is occupied by whatever string `result`
currently holds). -/

/-- The importer's `result` closure variable: `.inl s` when it holds the
string `s`, `.inr sess` when `init` installed a broker session. -/
abbrev ImporterState : Type := Sum String BrokerSession

/-- The `mod` argument to `init` as far as its validation inspects it:
not an object, an object whose `exports` is not an object, or a module whose
`exports.__exportedKeys` hook is either absent (not a function) or a
function modelled by its behaviour `filename → keys → result`. -/
inductive ModArg where
  | notObject
  | badExports
  | modOk (hook : Option (String → List String → Sum String BrokerSession))

/-- `keys[0]` stringified: `"undefined"` when `keys` is empty. -/
def headKey (keys : List String) : String :=
  keys.headD "undefined"

/-- What a call to `init` did: threw the module-shape `TypeError`, threw the
reference error (recording the key cited first and the string cited in the
source position), or returned normally. -/
inductive InitOutcome where
  | threwTypeError (msg : String)
  | threwRefError (citedKey : String) (citedFrom : String)
  | completed
deriving DecidableEq, Repr

/-- `init(mod, filename, keys)`: validate `mod` (state unchanged on the
`TypeError` paths), then if `exports.__exportedKeys` is a function assign
`result = exportedKeys(filename, TE, keys)`, and finally throw the reference
error iff `result` is (still) a string — citing `keys[0]` and `result`. -/
def importerInit (st : ImporterState) (m : ModArg) (filename : String)
    (keys : List String) : ImporterState × InitOutcome :=
  match m with
  | .notObject => (st, .threwTypeError "mod is not a module instance!")
  | .badExports => (st, .threwTypeError "mod is not a module instance!")
  | .modOk hook =>
      let result := match hook with
        | some f => f filename keys
        | none => st
      match result with
      | .inl s => (.inl s, .threwRefError (headKey keys) s)
      | .inr sess => (.inr sess, .completed)

/-- Errors surfaced by the importer's `get`/`set`: the reference error while
`result` is a string (citing the requested key, then the current string in
the source position), or an error thrown by the bound session. -/
inductive ImporterError where
  | refError (citedKey : String) (citedFrom : String)
  | fromSession (e : BrokerError)
deriving DecidableEq, Repr

/-- Importer `get`: throw the reference error while `result` is a string,
else delegate to `result.get(O, key)`. -/
def importerGet (st : ImporterState) (O : JSVal) (key : String) :
    Except ImporterError JSVal :=
  match st with
  | .inl s => .error (.refError key s)
  | .inr sess =>
      match sessionGet sess O key with
      | .error e => .error (.fromSession e)
      | .ok v => .ok v

/-- Importer `set`: throw the reference error while `result` is a string,
else delegate to `result.set(O, key, value)`. -/
def importerSet (st : ImporterState) (O : JSVal) (key : String) (V : JSVal) :
    Except ImporterError (Store × JSVal) :=
  match st with
  | .inl s => .error (.refError key s)
  | .inr sess =>
      match sessionSet sess O key V with
      | .error e => .error (.fromSession e)
      | .ok r => .ok r

/-- Setup invariant for the `exported` map: every recorded store really is
the `internalRefs` entry of its key (so recorded keys have a Hidden Store). -/
def ExpInv (internalRefs : String → Option Store)
    (ex : List (String × Store)) : Prop :=
  ∀ k s, mapGet ex k = some s → internalRefs k = some s

/-! ## Concrete fixtures used to instantiate the theorems below -/

/-- A one-key `internalRefs`: the Hidden Store of `"elem"` holds `5` for
object `1`. -/
def fixtureStore : Store := [(JSVal.obj 1, JSVal.num 5)]

/-- `internalRefs` exposing only `"elem"`. -/
def fixtureRefs : String → Option Store :=
  fun k => if k = "elem" then some fixtureStore else none

/-- The broker produced by `makeExportedKeys fixtureRefs id ["elem"] []`. -/
def fixtureBroker : Broker := ⟨["elem"], [], [("elem", fixtureStore)]⟩

/-- The session produced by `brokerFactory fixtureBroker "f" ["elem"]`. -/
def fixtureSession : BrokerSession := ⟨["elem"], [("elem", fixtureStore)]⟩

/-- An inert session used as a concrete broker-hook return value. -/
def sessEmpty : BrokerSession := ⟨[], []⟩

/-! ## Helper lemmas -/

theorem removePrivateKeys_eq_filter {α : Type} (p : α → Bool) (l : List α) :
    removePrivateKeys p l = l.filter (fun a => !p a) := by
  induction l with
  | nil => rfl
  | cons k ks ih =>
      by_cases hp : p k <;>
        simp [removePrivateKeys, List.filter_cons, hp, ih]

theorem mapGet_mapSet {α : Type} (m : List (String × α)) (k f : String) (v : α) :
    mapGet (mapSet m k v) f = if k = f then some v else mapGet m f := by
  induction m with
  | nil =>
      by_cases h : k = f <;> simp [mapSet, mapGet, h]
  | cons e rest ih =>
      by_cases h1 : e.1 = k
      · by_cases h2 : k = f <;> simp [mapSet, mapGet, h1, h2]
      · by_cases h2 : e.1 = f
        · have hkf : ¬(k = f) := fun hkf => h1 (by rw [h2, hkf])
          have hfk : ¬(f = k) := fun hfk => hkf hfk.symm
          simp [mapSet, mapGet, h1, h2, hkf, hfk]
        · simp [mapSet, mapGet, h1, h2, ih]

theorem ownKeysFilter_eq (isPriv : Nat → Bool) (keys : List PropKey) :
    ownKeysFilter isPriv keys =
      (if keys.any (fun k => k.isPrivateKey isPriv) then
        Except.error ownKeysTrapError
      else Except.ok keys) := by
  induction keys with
  | nil => rfl
  | cons k ks ih =>
      by_cases hk : k.isPrivateKey isPriv
      · simp [ownKeysFilter, hk, List.any_cons]
      · by_cases hany : ks.any (fun k => k.isPrivateKey isPriv) <;>
          simp [ownKeysFilter, hk, hany, List.any_cons, ih]

theorem validateKeys_inr (allowed keys : List String)
    (h : ∀ k ∈ keys, k ∈ allowed) :
    validateKeys allowed keys = .inr keys := by
  induction keys with
  | nil => rfl
  | cons k ks ih =>
      have hk : k ∈ allowed := h k (List.mem_cons_self k ks)
      have hks : ∀ k2 ∈ ks, k2 ∈ allowed := fun k2 hk2 => h k2 (List.mem_cons_of_mem k hk2)
      simp [validateKeys, hk, ih hks]

theorem validateKeys_first_bad (allowed : List String) (pre : List String)
    (bad : String) (post : List String)
    (hpre : ∀ p ∈ pre, p ∈ allowed) (hbad : bad ∉ allowed) :
    validateKeys allowed (pre ++ bad :: post) = .inl bad := by
  induction pre with
  | nil => simp [validateKeys, hbad]
  | cons p pre2 ih =>
      have hp : p ∈ allowed := hpre p (List.mem_cons_self p pre2)
      have hpre2 : ∀ q ∈ pre2, q ∈ allowed :=
        fun q hq => hpre q (List.mem_cons_of_mem p hq)
      simp [validateKeys, hp, ih hpre2]

theorem validateKeys_inr_sub (allowed keys refs : List String)
    (h : validateKeys allowed keys = .inr refs) :
    refs = keys ∧ ∀ k ∈ refs, k ∈ allowed := by
  induction keys generalizing refs with
  | nil =>
      simp [validateKeys] at h
      subst h
      exact ⟨rfl, by simp⟩
  | cons k ks ih =>
      by_cases hk : k ∈ allowed
      · simp only [validateKeys, if_pos hk] at h
        cases hrec : validateKeys allowed ks with
        | inl bad => rw [hrec] at h; cases h
        | inr refs2 =>
            rw [hrec] at h
            cases h
            obtain ⟨heq, hsub⟩ := ih refs2 hrec
            subst heq
            refine ⟨rfl, ?_⟩
            intro k2 hk2
            rcases List.mem_cons.mp hk2 with h2 | h2
            · exact h2 ▸ hk
            · exact hsub k2 h2
      · simp [validateKeys, hk] at h

theorem ExpInv_nil (i : String → Option Store) : ExpInv i [] := by
  intro k s h
  simp [mapGet] at h

theorem addExported_inv (i : String → Option Store)
    (ex ex2 : List (String × Store)) (k : String)
    (hinv : ExpInv i ex) (h : addExported i ex k = .ok ex2) : ExpInv i ex2 := by
  by_cases hp : (mapGet ex k).isSome
  · simp [addExported, hp] at h
    exact h ▸ hinv
  · cases hi : i k with
    | none => simp [addExported, hp, hi] at h
    | some s =>
        simp [addExported, hp, hi] at h
        subst h
        intro k2 s2 hg
        rw [mapGet_mapSet] at hg
        by_cases hk : k = k2
        · subst hk
          simp at hg
          exact hg ▸ hi
        · rw [if_neg hk] at hg
          exact hinv k2 s2 hg

theorem addExported_ok_isSome (i : String → Option Store)
    (ex ex2 : List (String × Store)) (k : String)
    (h : addExported i ex k = .ok ex2) : (mapGet ex2 k).isSome := by
  by_cases hp : (mapGet ex k).isSome
  · simp [addExported, hp] at h
    exact h ▸ hp
  · cases hi : i k with
    | none => simp [addExported, hp, hi] at h
    | some s =>
        simp [addExported, hp, hi] at h
        subst h
        rw [mapGet_mapSet]
        simp

theorem addExported_mono (i : String → Option Store)
    (ex ex2 : List (String × Store)) (k : String)
    (h : addExported i ex k = .ok ex2) :
    ∀ k2, (mapGet ex k2).isSome → (mapGet ex2 k2).isSome := by
  intro k2 h2
  by_cases hp : (mapGet ex k).isSome
  · simp [addExported, hp] at h
    exact h ▸ h2
  · cases hi : i k with
    | none => simp [addExported, hp, hi] at h
    | some s =>
        simp [addExported, hp, hi] at h
        subst h
        rw [mapGet_mapSet]
        by_cases hk : k = k2 <;> simp [hk, h2]

theorem addExported_ok_refs (i : String → Option Store)
    (ex ex2 : List (String × Store)) (k : String)
    (hinv : ExpInv i ex) (h : addExported i ex k = .ok ex2) : (i k).isSome := by
  by_cases hp : (mapGet ex k).isSome
  · obtain ⟨s, hs⟩ := Option.isSome_iff_exists.mp hp
    rw [hinv k s hs]
    simp
  · cases hi : i k with
    | none => simp [addExported, hp, hi] at h
    | some s => simp

theorem addExported_error (i : String → Option Store)
    (ex : List (String × Store)) (k : String) (e : String)
    (_hinv : ExpInv i ex) (h : addExported i ex k = .error e) : i k = none := by
  by_cases hp : (mapGet ex k).isSome
  · simp [addExported, hp] at h
  · cases hi : i k with
    | none => rfl
    | some s => simp [addExported, hp, hi] at h

theorem addExported_ok_of (i : String → Option Store)
    (ex : List (String × Store)) (k : String) (hk : (i k).isSome) :
    ∃ ex2, addExported i ex k = .ok ex2 := by
  by_cases hp : (mapGet ex k).isSome
  · exact ⟨ex, by simp [addExported, hp]⟩
  · obtain ⟨s, hs⟩ := Option.isSome_iff_exists.mp hk
    exact ⟨mapSet ex k s, by simp [addExported, hp, hs]⟩

theorem addAll_inv (i : String → Option Store) (ks : List String) :
    ∀ ex ex2, ExpInv i ex → addAll i ks ex = .ok ex2 → ExpInv i ex2 := by
  induction ks with
  | nil =>
      intro ex ex2 hinv h
      simp [addAll] at h
      exact h ▸ hinv
  | cons k ks ih =>
      intro ex ex2 hinv h
      simp only [addAll] at h
      cases ha : addExported i ex k with
      | error e => rw [ha] at h; cases h
      | ok exm =>
          rw [ha] at h
          exact ih exm ex2 (addExported_inv i ex exm k hinv ha) h

theorem addAll_mono (i : String → Option Store) (ks : List String) :
    ∀ ex ex2, addAll i ks ex = .ok ex2 →
      ∀ k2, (mapGet ex k2).isSome → (mapGet ex2 k2).isSome := by
  induction ks with
  | nil =>
      intro ex ex2 h k2 h2
      simp [addAll] at h
      exact h ▸ h2
  | cons k ks ih =>
      intro ex ex2 h k2 h2
      simp only [addAll] at h
      cases ha : addExported i ex k with
      | error e => rw [ha] at h; cases h
      | ok exm =>
          rw [ha] at h
          exact ih exm ex2 h k2 (addExported_mono i ex exm k ha k2 h2)

theorem addAll_adds (i : String → Option Store) (ks : List String) :
    ∀ ex ex2, addAll i ks ex = .ok ex2 → ∀ k ∈ ks, (mapGet ex2 k).isSome := by
  induction ks with
  | nil =>
      intro ex ex2 _ k hk
      cases hk
  | cons k0 ks ih =>
      intro ex ex2 h k hk
      simp only [addAll] at h
      cases ha : addExported i ex k0 with
      | error e => rw [ha] at h; cases h
      | ok exm =>
          rw [ha] at h
          rcases List.mem_cons.mp hk with h1 | h1
          · subst h1
            exact addAll_mono i ks exm ex2 h k
              (addExported_ok_isSome i ex exm k ha)
          · exact ih exm ex2 h k h1

theorem addAll_ok_refs (i : String → Option Store) (ks : List String) :
    ∀ ex ex2, ExpInv i ex → addAll i ks ex = .ok ex2 →
      ∀ k ∈ ks, (i k).isSome := by
  induction ks with
  | nil =>
      intro ex ex2 _ _ k hk
      cases hk
  | cons k0 ks ih =>
      intro ex ex2 hinv h k hk
      simp only [addAll] at h
      cases ha : addExported i ex k0 with
      | error e => rw [ha] at h; cases h
      | ok exm =>
          rw [ha] at h
          rcases List.mem_cons.mp hk with h1 | h1
          · subst h1
            exact addExported_ok_refs i ex exm k hinv ha
          · exact ih exm ex2 (addExported_inv i ex exm k0 hinv ha) h k h1

theorem addAll_error (i : String → Option Store) (ks : List String) :
    ∀ ex e, ExpInv i ex → addAll i ks ex = .error e →
      ∃ k ∈ ks, i k = none := by
  induction ks with
  | nil =>
      intro ex e _ h
      simp [addAll] at h
  | cons k0 ks ih =>
      intro ex e hinv h
      simp only [addAll] at h
      cases ha : addExported i ex k0 with
      | error e2 =>
          exact ⟨k0, List.mem_cons_self k0 ks,
            addExported_error i ex k0 e2 hinv ha⟩
      | ok exm =>
          rw [ha] at h
          obtain ⟨k, hk, hnone⟩ :=
            ih exm e (addExported_inv i ex exm k0 hinv ha) h
          exact ⟨k, List.mem_cons_of_mem k0 hk, hnone⟩

theorem addAll_ok_of (i : String → Option Store) (ks : List String) :
    ∀ ex, (∀ k ∈ ks, (i k).isSome) → ∃ ex2, addAll i ks ex = .ok ex2 := by
  induction ks with
  | nil =>
      intro ex _
      exact ⟨ex, rfl⟩
  | cons k0 ks ih =>
      intro ex hall
      obtain ⟨exm, hm⟩ :=
        addExported_ok_of i ex k0 (hall k0 (List.mem_cons_self k0 ks))
      obtain ⟨ex2, h2⟩ :=
        ih exm (fun k hk => hall k (List.mem_cons_of_mem k0 hk))
      exact ⟨ex2, by simp only [addAll, hm]; exact h2⟩

theorem processScoped_inv (i : String → Option Store) (r : String → String)
    (fb : List String) (sl : List (String × List String)) :
    ∀ ex res ex2 res2, ExpInv i ex →
      processScoped i r fb sl ex res = .ok (ex2, res2) → ExpInv i ex2 := by
  induction sl with
  | nil =>
      intro ex res ex2 res2 hinv h
      simp [processScoped] at h
      exact h.1 ▸ hinv
  | cons p rest ih =>
      intro ex res ex2 res2 hinv h
      obtain ⟨m, ks⟩ := p
      simp only [processScoped] at h
      cases ha : addAll i ks ex with
      | error e => rw [ha] at h; cases h
      | ok exm =>
          rw [ha] at h
          exact ih exm (mapSet res (r m) (fb ++ ks)) ex2 res2
            (addAll_inv i ks ex exm hinv ha) h

theorem processScoped_mono (i : String → Option Store) (r : String → String)
    (fb : List String) (sl : List (String × List String)) :
    ∀ ex res ex2 res2, processScoped i r fb sl ex res = .ok (ex2, res2) →
      ∀ k2, (mapGet ex k2).isSome → (mapGet ex2 k2).isSome := by
  induction sl with
  | nil =>
      intro ex res ex2 res2 h k2 h2
      simp [processScoped] at h
      exact h.1 ▸ h2
  | cons p rest ih =>
      intro ex res ex2 res2 h k2 h2
      obtain ⟨m, ks⟩ := p
      simp only [processScoped] at h
      cases ha : addAll i ks ex with
      | error e => rw [ha] at h; cases h
      | ok exm =>
          rw [ha] at h
          exact ih exm (mapSet res (r m) (fb ++ ks)) ex2 res2 h k2
            (addAll_mono i ks ex exm ha k2 h2)

theorem processScoped_adds (i : String → Option Store) (r : String → String)
    (fb : List String) (sl : List (String × List String)) :
    ∀ ex res ex2 res2, processScoped i r fb sl ex res = .ok (ex2, res2) →
      ∀ p ∈ sl, ∀ k ∈ p.2, (mapGet ex2 k).isSome := by
  induction sl with
  | nil =>
      intro ex res ex2 res2 _ p hp
      cases hp
  | cons p0 rest ih =>
      intro ex res ex2 res2 h p hp k hk
      obtain ⟨m, ks⟩ := p0
      simp only [processScoped] at h
      cases ha : addAll i ks ex with
      | error e => rw [ha] at h; cases h
      | ok exm =>
          rw [ha] at h
          rcases List.mem_cons.mp hp with h1 | h1
          · subst h1
            exact processScoped_mono i r fb rest exm
              (mapSet res (r m) (fb ++ ks)) ex2 res2 h k
              (addAll_adds i ks ex exm ha k hk)
          · exact ih exm (mapSet res (r m) (fb ++ ks)) ex2 res2 h p h1 k hk

theorem processScoped_ok_refs (i : String → Option Store) (r : String → String)
    (fb : List String) (sl : List (String × List String)) :
    ∀ ex res ex2 res2, ExpInv i ex →
      processScoped i r fb sl ex res = .ok (ex2, res2) →
      ∀ p ∈ sl, ∀ k ∈ p.2, (i k).isSome := by
  induction sl with
  | nil =>
      intro ex res ex2 res2 _ _ p hp
      cases hp
  | cons p0 rest ih =>
      intro ex res ex2 res2 hinv h p hp k hk
      obtain ⟨m, ks⟩ := p0
      simp only [processScoped] at h
      cases ha : addAll i ks ex with
      | error e => rw [ha] at h; cases h
      | ok exm =>
          rw [ha] at h
          rcases List.mem_cons.mp hp with h1 | h1
          · subst h1
            exact addAll_ok_refs i ks ex exm hinv ha k hk
          · exact ih exm (mapSet res (r m) (fb ++ ks)) ex2 res2
              (addAll_inv i ks ex exm hinv ha) h p h1 k hk

theorem processScoped_error (i : String → Option Store) (r : String → String)
    (fb : List String) (sl : List (String × List String)) :
    ∀ ex res e, ExpInv i ex → processScoped i r fb sl ex res = .error e →
      ∃ p ∈ sl, ∃ k ∈ p.2, i k = none := by
  induction sl with
  | nil =>
      intro ex res e _ h
      simp [processScoped] at h
  | cons p0 rest ih =>
      intro ex res e hinv h
      obtain ⟨m, ks⟩ := p0
      simp only [processScoped] at h
      cases ha : addAll i ks ex with
      | error e2 =>
          obtain ⟨k, hk, hnone⟩ := addAll_error i ks ex e2 hinv ha
          exact ⟨(m, ks), List.mem_cons_self _ _, k, hk, hnone⟩
      | ok exm =>
          rw [ha] at h
          obtain ⟨p, hp, k, hk, hnone⟩ :=
            ih exm (mapSet res (r m) (fb ++ ks)) e
              (addAll_inv i ks ex exm hinv ha) h
          exact ⟨p, List.mem_cons_of_mem _ hp, k, hk, hnone⟩

theorem processScoped_ok_of (i : String → Option Store) (r : String → String)
    (fb : List String) (sl : List (String × List String)) :
    ∀ ex res, (∀ p ∈ sl, ∀ k ∈ p.2, (i k).isSome) →
      ∃ out, processScoped i r fb sl ex res = .ok out := by
  induction sl with
  | nil =>
      intro ex res _
      exact ⟨(ex, res), rfl⟩
  | cons p0 rest ih =>
      intro ex res hall
      obtain ⟨m, ks⟩ := p0
      obtain ⟨exm, hm⟩ :=
        addAll_ok_of i ks ex (fun k hk => hall (m, ks) (List.mem_cons_self _ _) k hk)
      obtain ⟨out, hout⟩ :=
        ih exm (mapSet res (r m) (fb ++ ks))
          (fun p hp k hk => hall p (List.mem_cons_of_mem _ hp) k hk)
      exact ⟨out, by simp only [processScoped, hm]; exact hout⟩

theorem processScoped_resolved (i : String → Option Store) (r : String → String)
    (fb : List String) (sl : List (String × List String)) :
    ∀ ex res ex2 res2, processScoped i r fb sl ex res = .ok (ex2, res2) →
      res2 = sl.foldl (fun r2 p => mapSet r2 (r p.1) (fb ++ p.2)) res := by
  induction sl with
  | nil =>
      intro ex res ex2 res2 h
      simp [processScoped] at h
      simp [h.2]
  | cons p0 rest ih =>
      intro ex res ex2 res2 h
      obtain ⟨m, ks⟩ := p0
      simp only [processScoped] at h
      cases ha : addAll i ks ex with
      | error e => rw [ha] at h; cases h
      | ok exm =>
          rw [ha] at h
          rw [List.foldl_cons]
          exact ih exm (mapSet res (r m) (fb ++ ks)) ex2 res2 h

theorem foldl_mapSet_not_mem (r : String → String) (fb : List String)
    (sl : List (String × List String)) :
    ∀ res f, (∀ p ∈ sl, r p.1 ≠ f) →
      mapGet (sl.foldl (fun r2 p => mapSet r2 (r p.1) (fb ++ p.2)) res) f =
        mapGet res f := by
  induction sl with
  | nil =>
      intro res f _
      rfl
  | cons p0 rest ih =>
      intro res f hne
      rw [List.foldl_cons]
      rw [ih (mapSet res (r p0.1) (fb ++ p0.2)) f
        (fun p hp => hne p (List.mem_cons_of_mem _ hp))]
      rw [mapGet_mapSet]
      rw [if_neg (hne p0 (List.mem_cons_self _ _))]

theorem foldl_mapSet_mem_nodup (r : String → String) (fb : List String)
    (sl : List (String × List String)) :
    ∀ res m ks, ((sl.map (fun p => r p.1)).Nodup) → (m, ks) ∈ sl →
      mapGet (sl.foldl (fun r2 p => mapSet r2 (r p.1) (fb ++ p.2)) res) (r m) =
        some (fb ++ ks) := by
  induction sl with
  | nil =>
      intro res m ks _ hmem
      cases hmem
  | cons p0 rest ih =>
      intro res m ks hnodup hmem
      rw [List.map_cons, List.nodup_cons] at hnodup
      rw [List.foldl_cons]
      rcases List.mem_cons.mp hmem with h1 | h1
      · subst h1
        have hne : ∀ p ∈ rest, r p.1 ≠ r m := by
          intro p hp heq
          exact hnodup.1 (heq ▸ List.mem_map_of_mem (fun p2 => r p2.1) hp)
        rw [foldl_mapSet_not_mem r fb rest _ (r m) hne]
        rw [mapGet_mapSet, if_pos rfl]
      · exact ih _ m ks hnodup.2 h1

theorem foldl_mapSet_values (r : String → String) (fb : List String)
    (sl : List (String × List String)) :
    ∀ res f L,
      mapGet (sl.foldl (fun r2 p => mapSet r2 (r p.1) (fb ++ p.2)) res) f =
        some L →
      mapGet res f = some L ∨ ∃ p ∈ sl, L = fb ++ p.2 := by
  induction sl with
  | nil =>
      intro res f L h
      exact Or.inl h
  | cons p0 rest ih =>
      intro res f L h
      rw [List.foldl_cons] at h
      rcases ih _ f L h with h1 | h1
      · rw [mapGet_mapSet] at h1
        by_cases he : r p0.1 = f
        · rw [if_pos he] at h1
          exact Or.inr ⟨p0, List.mem_cons_self _ _, (Option.some.inj h1).symm⟩
        · rw [if_neg he] at h1
          exact Or.inl h1
      · obtain ⟨p, hp, hL⟩ := h1
        exact Or.inr ⟨p, List.mem_cons_of_mem _ hp, hL⟩

theorem makeExportedKeys_ok_parts (i : String → Option Store)
    (r : String → String) (all : List String)
    (sl : List (String × List String)) (b : Broker)
    (h : makeExportedKeys i r all sl = .ok b) :
    ∃ ex0, addAll i all [] = .ok ex0 ∧
      processScoped i r all sl ex0 [] = .ok (b.exported, b.resolved) ∧
      b.fallback = all := by
  simp only [makeExportedKeys] at h
  cases ha : addAll i all [] with
  | error e =>
      simp only [ha] at h
      exact Except.noConfusion h
  | ok ex0 =>
      simp only [ha] at h
      cases hp : processScoped i r all sl ex0 [] with
      | error e =>
          simp only [hp] at h
          exact Except.noConfusion h
      | ok out =>
          obtain ⟨ex1, res⟩ := out
          simp only [hp] at h
          cases h
          exact ⟨ex0, rfl, hp, rfl⟩

theorem broker_exported_inv (i : String → Option Store)
    (r : String → String) (all : List String)
    (sl : List (String × List String)) (b : Broker)
    (h : makeExportedKeys i r all sl = .ok b) : ExpInv i b.exported := by
  obtain ⟨ex0, ha, hp, _⟩ := makeExportedKeys_ok_parts i r all sl b h
  exact processScoped_inv i r all sl ex0 [] b.exported b.resolved
    (addAll_inv i all [] ex0 (ExpInv_nil i) ha) hp

theorem broker_allowed_domain (i : String → Option Store)
    (r : String → String) (all : List String)
    (sl : List (String × List String)) (b : Broker)
    (h : makeExportedKeys i r all sl = .ok b) (filename : String) :
    ∀ k ∈ (mapGet b.resolved filename).getD b.fallback,
      (mapGet b.exported k).isSome := by
  obtain ⟨ex0, ha, hp, hfb⟩ := makeExportedKeys_ok_parts i r all sl b h
  have hall : ∀ k ∈ all, (mapGet b.exported k).isSome := by
    intro k hk
    exact processScoped_mono i r all sl ex0 [] b.exported b.resolved hp k
      (addAll_adds i all [] ex0 ha k hk)
  intro k hk
  cases hres : mapGet b.resolved filename with
  | none =>
      rw [hres] at hk
      simp only [Option.getD] at hk
      exact hall k (hfb ▸ hk)
  | some L =>
      rw [hres] at hk
      simp only [Option.getD] at hk
      have hchar := processScoped_resolved i r all sl ex0 [] b.exported
        b.resolved hp
      rw [hchar] at hres
      rcases foldl_mapSet_values r all sl [] filename L hres with h1 | h1
      · simp [mapGet] at h1
      · obtain ⟨p, hpmem, hL⟩ := h1
        subst hL
        rcases List.mem_append.mp hk with h2 | h2
        · exact hall k h2
        · exact processScoped_adds i r all sl ex0 [] b.exported b.resolved
            hp p hpmem k h2

theorem brokerFactory_inr (b : Broker) (filename : String)
    (keys : List String) (s : BrokerSession)
    (h : brokerFactory b filename keys = .inr s) :
    s.exported = b.exported ∧ s.refs = keys ∧
      ∀ k ∈ s.refs, k ∈ (mapGet b.resolved filename).getD b.fallback := by
  simp only [brokerFactory] at h
  cases hv : validateKeys ((mapGet b.resolved filename).getD b.fallback) keys with
  | inl bad => rw [hv] at h; cases h
  | inr refs =>
      rw [hv] at h
      cases h
      obtain ⟨heq, hsub⟩ := validateKeys_inr_sub _ keys refs hv
      exact ⟨rfl, heq, hsub⟩

theorem mem_ownSymbolsOf (own : DescRecord) (e : PropKey × Nat) (id : Nat)
    (he : e ∈ own) (hkey : e.1 = PropKey.symKey id) : id ∈ ownSymbolsOf own := by
  refine List.mem_filterMap.mpr ⟨e, he, ?_⟩
  rw [hkey]

theorem foldl_privDelete (isPriv : Nat → Bool) (ss : List Nat) :
    ∀ rrec : DescRecord,
      ss.foldl (fun res id =>
          if isPriv id then recordDelete res (.symKey id) else res) rrec =
        rrec.filter (fun e =>
          !(ss.any (fun id => isPriv id && (e.1 = PropKey.symKey id : Bool)))) := by
  induction ss with
  | nil =>
      intro rrec
      simp [List.filter_true]
  | cons s ss ih =>
      intro rrec
      rw [List.foldl_cons]
      by_cases hs : isPriv s
      · rw [if_pos hs, ih (recordDelete rrec (.symKey s))]
        unfold recordDelete
        rw [List.filter_filter]
        apply List.filter_congr
        intro e _
        simp [List.any_cons, hs, Bool.not_or, Bool.and_comm]
      · rw [if_neg hs, ih rrec]
        apply List.filter_congr
        intro e _
        simp [List.any_cons, hs]

theorem weakHas_eq_isSome (st : Store) (o : JSVal) :
    weakHas st o = (weakGet st o).isSome := by
  induction st with
  | nil => rfl
  | cons e rest ih =>
      obtain ⟨k, w⟩ := e
      by_cases he : k = o <;> simp [weakHas, weakGet, he, ih]

theorem weakGet_weakSet_self (st : Store) (o v : JSVal) :
    weakGet (weakSet st o v) o = some v := by
  induction st with
  | nil => simp [weakSet, weakGet]
  | cons e rest ih =>
      obtain ⟨k, w⟩ := e
      by_cases he : k = o <;> simp [weakSet, weakGet, he, ih]

/-! ## Claim theorems -/

/-- Claim C1: for every filtered proxy and every key-parameterized operation
(get, set, has, delete, define-property, get-descriptor): a private key means
the user handler's trap is never invoked and the operation runs with default
semantics against the raw target (`Call.defaultOp` with the original
arguments); a non-private key with a supplied trap invokes the trap with the
original arguments; a non-private key without a trap falls back to the
default semantics. -/
theorem filterTrap_private_bypass {α : Type} (isPriv : Nat → Bool)
    (h : ProxyHandler) (m : KeyedMethod) (key : PropKey) (args : α) :
    (key.isPrivateKey isPriv = true →
      filterTrap isPriv h m key args = Call.defaultOp args) ∧
    (key.isPrivateKey isPriv = false → h.trapPresent m = true →
      filterTrap isPriv h m key args = Call.trap args) ∧
    (key.isPrivateKey isPriv = false → h.trapPresent m = false →
      filterTrap isPriv h m key args = Call.defaultOp args) := by
  refine ⟨fun hp => ?_, fun hp ht => ?_, fun hp ht => ?_⟩ <;>
    simp [filterTrap, hp, *]

/-- Witness for `filterTrap_private_bypass`, on a registry containing only
symbol `0`: a get with the private symbol `0` bypasses a present trap, a get
with a public string key reaches the trap, and a get with a public key and no
trap falls back to the default. -/
theorem filterTrap_private_bypass_witness :
    filterTrap (fun id => id == 0) ⟨fun _ => true⟩ KeyedMethod.get
      (PropKey.symKey 0) (7 : Nat) = Call.defaultOp 7 ∧
    filterTrap (fun id => id == 0) ⟨fun _ => true⟩ KeyedMethod.get
      (PropKey.strKey "pub") (7 : Nat) = Call.trap 7 ∧
    filterTrap (fun id => id == 0) ⟨fun _ => false⟩ KeyedMethod.get
      (PropKey.strKey "pub") (7 : Nat) = Call.defaultOp 7 :=
  ⟨(filterTrap_private_bypass (fun id => id == 0) ⟨fun _ => true⟩
      KeyedMethod.get (PropKey.symKey 0) 7).1 rfl,
    (filterTrap_private_bypass (fun id => id == 0) ⟨fun _ => true⟩
      KeyedMethod.get (PropKey.strKey "pub") 7).2.1 rfl rfl,
    (filterTrap_private_bypass (fun id => id == 0) ⟨fun _ => false⟩
      KeyedMethod.get (PropKey.strKey "pub") 7).2.2 rfl rfl⟩

/-- Claim C2 (amended): with a user `ownKeys` trap present, the filtered
enumeration fails fatally with the `TypeError` as soon as the trap's
returned list contains any private key — whether or not that key is an own
key of the target — and otherwise returns the list unchanged (no key
removed, order preserved); without a trap the default enumeration of the raw
target is returned. -/
theorem ownKeysTrap_fatal_on_private (isPriv : Nat → Bool)
    (targetOwnKeys keys : List PropKey) :
    ownKeysTrap isPriv targetOwnKeys (some keys) =
      (if keys.any (fun k => k.isPrivateKey isPriv) then
        Except.error ownKeysTrapError
      else Except.ok keys) ∧
    ownKeysTrap isPriv targetOwnKeys none = Except.ok targetOwnKeys :=
  ⟨ownKeysFilter_eq isPriv keys, rfl⟩

/-- Counterexample to claim C2 as stated: let symbol `0` be private and an
own key of the target. The claim predicts the filtered enumeration result
equals the trap's list with private keys removed (here `[]`), failing only
for private keys that are not own keys; the code instead throws the
`TypeError`. -/
theorem ownKeysTrap_spec_counterexample :
    ownKeysTrap (fun id => id == 0) [PropKey.symKey 0]
        (some [PropKey.symKey 0]) = Except.error ownKeysTrapError ∧
    ownKeysTrap (fun id => id == 0) [PropKey.symKey 0]
        (some [PropKey.symKey 0]) ≠
      Except.ok (([PropKey.symKey 0] : List PropKey).filter
        (fun k => !(k.isPrivateKey (fun id => id == 0)))) := by
  refine ⟨rfl, fun hcontra => ?_⟩
  have heval : ownKeysTrap (fun id => id == 0) [PropKey.symKey 0]
      (some [PropKey.symKey 0]) = Except.error ownKeysTrapError := rfl
  rw [heval] at hcontra
  exact Except.noConfusion hcontra

/-- Claim C3, settled against the code as written: `Symbol.private` marks the
fresh symbol in the registry (second conjunct shows membership holds), but
`Symbol.isPrivate` never reports it — the symbol branch reads the unbound
identifier `symbol` and throws a `ReferenceError` for every symbol argument,
and no argument whatsoever produces a boolean result. -/
theorem symbolIsPrivate_never_returns (st : PolyfillState)
    (registry : List Nat) (arg : JSVal) :
    symbolIsPrivate (symbolPrivate st).1.data
        (JSVal.symV (symbolPrivate st).2) =
      JSOutcome.referenceError "symbol is not defined" ∧
    (symbolPrivate st).1.isPrivateSym (symbolPrivate st).2 = true ∧
    (∀ b, symbolIsPrivate registry arg ≠ JSOutcome.ok b) := by
  refine ⟨rfl, ?_, fun b hc => ?_⟩
  · simp [symbolPrivate, PolyfillState.isPrivateSym]
  · cases arg <;> simp [symbolIsPrivate] at hc

/-- Claim C6 (amended): an `init` whose module carries a broker hook sets the
binding to exactly the hook's result regardless of the prior state — a
returned session rebinds a poisoned binding to `Bound`, a returned sentinel
string re-poisons a bound binding — so neither `Poisoned` nor `Bound` is
terminal; only module-validation failures and hook-less inits leave the
state unchanged. -/
theorem importerInit_state_transitions (st : ImporterState)
    (f : String → List String → Sum String BrokerSession)
    (filename : String) (keys : List String) :
    (importerInit st (.modOk (some f)) filename keys).1 = f filename keys ∧
    (importerInit st (.modOk none) filename keys).1 = st ∧
    (importerInit st .notObject filename keys).1 = st ∧
    (importerInit st .badExports filename keys).1 = st := by
  refine ⟨?_, ?_, rfl, rfl⟩
  · cases hf : f filename keys <;> simp [importerInit, hf]
  · cases st <;> simp [importerInit]

/-- Counterexample to claim C6 as stated: a binding poisoned by a failed
`init` (sentinel `"foo"`) is moved to `Bound` by a later `init` whose hook
returns a session, and a bound binding is re-poisoned by a later `init`
whose hook returns a sentinel — neither state is terminal. -/
theorem importerInit_terminality_counterexample :
    (importerInit (Sum.inl "src")
        (.modOk (some (fun _ _ => Sum.inl "foo"))) "f" ["k"]).1 =
      Sum.inl "foo" ∧
    (importerInit (Sum.inl "foo")
        (.modOk (some (fun _ _ => Sum.inr sessEmpty))) "f" ["k"]).1 =
      Sum.inr sessEmpty ∧
    (importerInit (Sum.inr sessEmpty)
        (.modOk (some (fun _ _ => Sum.inl "bar"))) "f" ["k"]).1 =
      Sum.inl "bar" :=
  ⟨rfl, rfl, rfl⟩

/-- Claim C7 (amended): whenever the binding holds a string `s` (unbound or
poisoned), every `get`/`set` fails with a reference error citing the
requested key and `s`; an `init` whose hook returns sentinel `"foo"` leaves
the binding holding `"foo"`, so subsequent calls cite the requested key and
`"foo"` — the sentinel occupies the source position of the message and the
original source is no longer cited. -/
theorem importer_refError_fields (s : String) (O O2 : JSVal)
    (key k2 : String) (V : JSVal) (st : ImporterState) (filename : String)
    (keys : List String)
    (hook : String → List String → Sum String BrokerSession)
    (sentinel : String) (hpoison : hook filename keys = Sum.inl sentinel) :
    importerGet (Sum.inl s) O key = .error (.refError key s) ∧
    importerSet (Sum.inl s) O key V = .error (.refError key s) ∧
    importerInit st (.modOk (some hook)) filename keys =
      (Sum.inl sentinel, .threwRefError (headKey keys) sentinel) ∧
    importerGet (Sum.inl sentinel) O2 k2 = .error (.refError k2 sentinel) := by
  refine ⟨rfl, rfl, ?_, rfl⟩
  simp [importerInit, hpoison]

/-- Witness for `importer_refError_fields` with source `"src"`, sentinel
`"foo"` and requested keys `"k"`, `"k2"`. -/
theorem importer_refError_fields_witness :
    importerGet (Sum.inl "src") JSVal.undef "k" =
      .error (.refError "k" "src") ∧
    importerSet (Sum.inl "src") JSVal.undef "k" JSVal.undef =
      .error (.refError "k" "src") ∧
    importerInit (Sum.inl "src")
        (.modOk (some (fun _ _ => Sum.inl "foo"))) "f" ["foo"] =
      (Sum.inl "foo", .threwRefError "foo" "foo") ∧
    importerGet (Sum.inl "foo") JSVal.undef "k2" =
      .error (.refError "k2" "foo") := by
  have h := importer_refError_fields "src" JSVal.undef JSVal.undef "k" "k2"
    JSVal.undef (Sum.inl "src") "f" ["foo"] (fun _ _ => Sum.inl "foo")
    "foo" rfl
  exact ⟨h.1, h.2.1, h.2.2.1, h.2.2.2⟩

/-- Counterexample to claim C7 as stated: source `"./exporter.js"`, `init`
poisoned by sentinel `"foo"`, then a `get` for key `"bar"`: the thrown
reference error carries `"bar"` (the requested key) and `"foo"` (in the
source position); the original source `"./exporter.js"` appears in neither
field, so the error does not cite the original source as claimed. -/
theorem importer_source_counterexample :
    (importerInit (Sum.inl "./exporter.js")
        (.modOk (some (fun _ _ => Sum.inl "foo"))) "f" ["foo"]).1 =
      Sum.inl "foo" ∧
    importerGet ((importerInit (Sum.inl "./exporter.js")
        (.modOk (some (fun _ _ => Sum.inl "foo"))) "f" ["foo"]).1)
      JSVal.undef "bar" = .error (.refError "bar" "foo") ∧
    "bar" ≠ "./exporter.js" ∧ "foo" ≠ "./exporter.js" := by
  refine ⟨rfl, rfl, by decide, by decide⟩

/-- Claim C8: `makeExportedKeys` throws at setup time iff some key name
referenced in the global list or one of the per-consumer lists has no Hidden
Store (`internalRefs` yields no `WeakMap` for it); otherwise setup completes
and returns the broker factory state. -/
theorem makeExportedKeys_fatal_iff_missing_store (i : String → Option Store)
    (r : String → String) (all : List String)
    (sl : List (String × List String)) :
    (∃ e, makeExportedKeys i r all sl = .error e) ↔
      ∃ k, (k ∈ all ∨ ∃ p ∈ sl, k ∈ p.2) ∧ i k = none := by
  constructor
  · rintro ⟨e, he⟩
    simp only [makeExportedKeys] at he
    cases ha : addAll i all [] with
    | error e2 =>
        obtain ⟨k, hk, hnone⟩ := addAll_error i all [] e2 (ExpInv_nil i) ha
        exact ⟨k, Or.inl hk, hnone⟩
    | ok ex0 =>
        simp only [ha] at he
        cases hp : processScoped i r all sl ex0 [] with
        | error e2 =>
            obtain ⟨p, hpmem, k, hk, hnone⟩ :=
              processScoped_error i r all sl ex0 [] e2
                (addAll_inv i all [] ex0 (ExpInv_nil i) ha) hp
            exact ⟨k, Or.inr ⟨p, hpmem, hk⟩, hnone⟩
        | ok out =>
            obtain ⟨ex1, res⟩ := out
            simp only [hp] at he
            exact Except.noConfusion he
  · rintro ⟨k, hk, hnone⟩
    cases hmk : makeExportedKeys i r all sl with
    | error e => exact ⟨e, rfl⟩
    | ok b =>
        exfalso
        obtain ⟨ex0, ha, hp, _⟩ := makeExportedKeys_ok_parts i r all sl b hmk
        rcases hk with h1 | ⟨p, hpmem, h1⟩
        · have hsome := addAll_ok_refs i all [] ex0 (ExpInv_nil i) ha k h1
          rw [hnone] at hsome
          simp at hsome
        · have hsome := processScoped_ok_refs i r all sl ex0 []
            b.exported b.resolved
            (addAll_inv i all [] ex0 (ExpInv_nil i) ha) hp p hpmem k h1
          rw [hnone] at hsome
          simp at hsome

/-- Claim C9: in a broker session's `get` and `set`, the authorization check
comes first: an unauthorized key name raises the invalid-key error for every
target `O` — including non-objects and objects without a Hidden Store entry
— so an authorization failure is never masked by a type-mismatch or
missing-field error. -/
theorem transact_auth_checked_first (s : BrokerSession) (O : JSVal)
    (key : String) (V : JSVal) (hkey : key ∉ s.refs) :
    transact s.refs s.exported O key = .error (.invalidKey key) ∧
    sessionGet s O key = .error (.invalidKey key) ∧
    sessionSet s O key V = .error (.invalidKey key) := by
  have ht : transact s.refs s.exported O key = .error (.invalidKey key) := by
    simp [transact, hkey]
  exact ⟨ht, by simp [sessionGet, ht], by simp [sessionSet, ht]⟩

/-- Witness for `transact_auth_checked_first`: the unauthorized key `"x"` on
a non-object target still raises the invalid-key error, not the
type-mismatch error. -/
theorem transact_auth_checked_first_witness :
    sessionGet fixtureSession (JSVal.num 1) "x" =
      .error (.invalidKey "x") ∧
    sessionSet fixtureSession (JSVal.num 1) "x" (JSVal.num 2) =
      .error (.invalidKey "x") := by
  have h := transact_auth_checked_first fixtureSession (JSVal.num 1) "x"
    (JSVal.num 2) (by decide)
  exact ⟨h.2.1, h.2.2⟩

/-- Claim C10: the patched reflection operations censor exactly the private
keys: `Reflect.ownKeys` and `Object.getOwnPropertySymbols` return the
underlying result with every private key removed and the order of the rest
preserved (a stable filter), and `Object.getOwnPropertyDescriptors` returns
the underlying record with exactly the private-symbol-keyed entries deleted
and every other entry unchanged. -/
theorem patched_reflection_censorship (isPriv : Nat → Bool)
    (underlyingKeys : List PropKey) (underlyingSyms : List Nat)
    (own : DescRecord) :
    reflectOwnKeysPatched isPriv underlyingKeys =
      underlyingKeys.filter (fun k => !(k.isPrivateKey isPriv)) ∧
    getOwnPropertySymbolsPatched isPriv underlyingSyms =
      underlyingSyms.filter (fun id => !(isPriv id)) ∧
    getOwnPropertyDescriptorsPatched isPriv own =
      own.filter (fun e => !(e.1.isPrivateKey isPriv)) := by
  refine ⟨removePrivateKeys_eq_filter _ underlyingKeys,
    removePrivateKeys_eq_filter _ underlyingSyms, ?_⟩
  unfold getOwnPropertyDescriptorsPatched
  rw [foldl_privDelete]
  apply List.filter_congr
  intro e he
  cases hkey : e.1 with
  | strKey s2 => simp [hkey, PropKey.isPrivateKey]
  | symKey id0 =>
      have hiskey : PropKey.isPrivateKey isPriv (PropKey.symKey id0) =
          isPriv id0 := rfl
      rw [hiskey]
      congr 1
      cases hp : isPriv id0 with
      | true =>
          rw [List.any_eq_true]
          exact ⟨id0, mem_ownSymbolsOf own e id0 he hkey, by simp [hp]⟩
      | false =>
          rw [List.any_eq_false]
          intro id hid
          simp
          intro hpid heq
          rw [heq] at hp
          rw [hp] at hpid
          exact Bool.noConfusion hpid

/-- Claim C4: for every broker session produced by the factory of a
successful `makeExportedKeys` setup, and every target `O`, key and value:
(a) an unauthorized key fails with the invalid-key error; (b) an authorized
key on a non-object target fails with the type-mismatch error; (c) an
authorized key whose Hidden Store (which always exists for authorized keys)
has no entry for `O` fails with the missing-field error; (d) otherwise `get`
returns the stored value, and `set` writes the entry and returns the
written value. -/
theorem brokerSession_gating (i : String → Option Store)
    (r : String → String) (all : List String)
    (sl : List (String × List String)) (b : Broker) (filename : String)
    (keys : List String) (s : BrokerSession)
    (hok : makeExportedKeys i r all sl = .ok b)
    (hs : brokerFactory b filename keys = .inr s) :
    ∀ (O : JSVal) (key : String) (V : JSVal),
      (key ∉ s.refs →
        sessionGet s O key = .error (.invalidKey key) ∧
        sessionSet s O key V = .error (.invalidKey key)) ∧
      (key ∈ s.refs → O.isObjLike = false →
        sessionGet s O key = .error (.typeMismatch key) ∧
        sessionSet s O key V = .error (.typeMismatch key)) ∧
      (key ∈ s.refs → O.isObjLike = true →
        ∃ store, mapGet s.exported key = some store ∧
          (weakHas store O = false →
            sessionGet s O key = .error (.missingField key) ∧
            sessionSet s O key V = .error (.missingField key)) ∧
          (∀ v, weakGet store O = some v → sessionGet s O key = .ok v) ∧
          (weakHas store O = true →
            sessionSet s O key V = .ok (weakSet store O V, V) ∧
            weakGet (weakSet store O V) O = some V)) := by
  intro O key V
  obtain ⟨hsx, _, hsub⟩ := brokerFactory_inr b filename keys s hs
  refine ⟨?_, ?_, ?_⟩
  · intro hk
    have ht : transact s.refs s.exported O key = .error (.invalidKey key) := by
      simp [transact, hk]
    exact ⟨by simp [sessionGet, ht], by simp [sessionSet, ht]⟩
  · intro hk hO
    have ht : transact s.refs s.exported O key =
        .error (.typeMismatch key) := by
      simp [transact, hk, hO]
    exact ⟨by simp [sessionGet, ht], by simp [sessionSet, ht]⟩
  · intro hk hO
    have hsome : (mapGet s.exported key).isSome := by
      rw [hsx]
      exact broker_allowed_domain i r all sl b hok filename key (hsub key hk)
    obtain ⟨store, hstore⟩ := Option.isSome_iff_exists.mp hsome
    refine ⟨store, hstore, ?_, ?_, ?_⟩
    · intro hmiss
      have ht : transact s.refs s.exported O key =
          .error (.missingField key) := by
        simp [transact, hk, hO, hstore, hmiss]
      exact ⟨by simp [sessionGet, ht], by simp [sessionSet, ht]⟩
    · intro v hv
      have hhas : weakHas store O = true := by
        rw [weakHas_eq_isSome, hv]
        rfl
      have ht : transact s.refs s.exported O key = .ok store := by
        simp [transact, hk, hO, hstore, hhas]
      simp [sessionGet, ht, hv]
    · intro hhas
      have ht : transact s.refs s.exported O key = .ok store := by
        simp [transact, hk, hO, hstore, hhas]
      exact ⟨by simp [sessionSet, ht], weakGet_weakSet_self store O V⟩

/-- Witness for `brokerSession_gating` on the fixture setup (`"elem"`
exported with a store holding `5` for object `1`; session authorized for
`["elem"]`): all four error/success behaviours at concrete inputs. -/
theorem brokerSession_gating_witness :
    sessionGet fixtureSession (JSVal.obj 1) "nope" =
      .error (.invalidKey "nope") ∧
    sessionGet fixtureSession (JSVal.num 3) "elem" =
      .error (.typeMismatch "elem") ∧
    sessionGet fixtureSession (JSVal.obj 2) "elem" =
      .error (.missingField "elem") ∧
    sessionGet fixtureSession (JSVal.obj 1) "elem" = .ok (JSVal.num 5) ∧
    sessionSet fixtureSession (JSVal.obj 1) "elem" (JSVal.num 9) =
      .ok ([(JSVal.obj 1, JSVal.num 9)], JSVal.num 9) := by
  have h := brokerSession_gating fixtureRefs (fun s => s) ["elem"] []
    fixtureBroker "f" ["elem"] fixtureSession rfl rfl
  have hstoreval : mapGet fixtureSession.exported "elem" =
      some fixtureStore := rfl
  refine ⟨?_, ?_, ?_, ?_, ?_⟩
  · exact ((h (JSVal.obj 1) "nope" JSVal.undef).1 (by decide)).1
  · exact ((h (JSVal.num 3) "elem" JSVal.undef).2.1 (by decide) rfl).1
  · obtain ⟨store, hst, hmiss, _, _⟩ :=
      (h (JSVal.obj 2) "elem" JSVal.undef).2.2 (by decide) rfl
    have hse : store = fixtureStore :=
      Option.some.inj (hst.symm.trans hstoreval)
    subst hse
    exact (hmiss (by decide)).1
  · obtain ⟨store, hst, _, hget, _⟩ :=
      (h (JSVal.obj 1) "elem" JSVal.undef).2.2 (by decide) rfl
    have hse : store = fixtureStore :=
      Option.some.inj (hst.symm.trans hstoreval)
    subst hse
    exact hget (JSVal.num 5) rfl
  · obtain ⟨store, hst, _, _, hset⟩ :=
      (h (JSVal.obj 1) "elem" (JSVal.num 9)).2.2 (by decide) rfl
    have hse : store = fixtureStore :=
      Option.some.inj (hst.symm.trans hstoreval)
    subst hse
    exact (hset (by decide)).1

/-- Claim C5: a successful setup yields, per consumer, an effective
allow-list whose membership is the union of the global list and that
consumer's scoped list (the global list alone for consumers with no scoped
entry, assuming distinct resolved consumer paths), and the factory walks the
requested keys in caller order, returning the first unauthorized name as the
sentinel, or a session authorized for exactly the requested names. -/
theorem makeExportedKeys_allowlist (i : String → Option Store)
    (r : String → String) (all : List String)
    (sl : List (String × List String)) (b : Broker)
    (hok : makeExportedKeys i r all sl = .ok b)
    (hnodup : (sl.map (fun p => r p.1)).Nodup) :
    (∀ m ks, (m, ks) ∈ sl → ∀ k,
      (k ∈ (mapGet b.resolved (r m)).getD b.fallback ↔ k ∈ all ∨ k ∈ ks)) ∧
    (∀ filename, (∀ p ∈ sl, r p.1 ≠ filename) → ∀ k,
      (k ∈ (mapGet b.resolved filename).getD b.fallback ↔ k ∈ all)) ∧
    (∀ filename pre bad post,
      (∀ p2 ∈ pre, p2 ∈ (mapGet b.resolved filename).getD b.fallback) →
      bad ∉ (mapGet b.resolved filename).getD b.fallback →
      brokerFactory b filename (pre ++ bad :: post) = .inl bad) ∧
    (∀ filename keys2,
      (∀ k ∈ keys2, k ∈ (mapGet b.resolved filename).getD b.fallback) →
      brokerFactory b filename keys2 = .inr ⟨keys2, b.exported⟩) := by
  obtain ⟨ex0, ha, hp, hfb⟩ := makeExportedKeys_ok_parts i r all sl b hok
  have hres := processScoped_resolved i r all sl ex0 [] b.exported
    b.resolved hp
  refine ⟨?_, ?_, ?_, ?_⟩
  · intro m ks hmem k
    rw [hres, foldl_mapSet_mem_nodup r all sl [] m ks hnodup hmem]
    simp [List.mem_append]
  · intro filename hne k
    rw [hres, foldl_mapSet_not_mem r all sl [] filename hne]
    simp [mapGet, hfb]
  · intro filename pre bad post hpre hbad
    simp only [brokerFactory]
    rw [validateKeys_first_bad _ pre bad post hpre hbad]
  · intro filename keys2 hall2
    simp only [brokerFactory]
    rw [validateKeys_inr _ keys2 hall2]

/-- Witness for `makeExportedKeys_allowlist` on the fixture setup: the
consumer-less allow-list is the global list, a fully-authorized request
returns a session for exactly those keys, and a request containing the
unauthorized `"x"` returns `"x"` as the sentinel. -/
theorem makeExportedKeys_allowlist_witness :
    ("elem" ∈ (mapGet fixtureBroker.resolved "f").getD
      fixtureBroker.fallback) ∧
    brokerFactory fixtureBroker "f" ["elem"] =
      .inr ⟨["elem"], fixtureBroker.exported⟩ ∧
    brokerFactory fixtureBroker "f" (["elem"] ++ "x" :: []) = .inl "x" := by
  have h := makeExportedKeys_allowlist fixtureRefs (fun s => s) ["elem"] []
    fixtureBroker rfl (by simp)
  refine ⟨?_, ?_, ?_⟩
  · exact (h.2.1 "f" (by simp) "elem").mpr (by decide)
  · exact h.2.2.2 "f" ["elem"] (by decide)
  · exact h.2.2.1 "f" ["elem"] "x" [] (by decide) (by decide)
